import Mathlib

set_option maxRecDepth 8000

/-!
Formal model of the aggregation-and-scoring pipeline of
`src/streamlit_app.py` (election dashboard, repository `elec`).

Conventions of the shallow embedding:
* pandas/NumPy floating-point arithmetic is idealised as exact rational
  arithmetic (`ℚ`);
* a float `NaN` (and any other non-finite float) is modelled as
  `none : Option ℚ`;
* machine integers are `ℕ`/`ℤ`;
* a DataFrame is a `List` of records, a groupby is a `filter` over the
  group key.
-/

/-- Round a rational to the nearest integer, ties to even.  This is the
rounding used by NumPy/pandas `.round` and by Python's builtin `round`. -/
def rhe (y : ℚ) : ℤ :=
  if Int.fract y < 1/2 then ⌊y⌋
  else if 1/2 < Int.fract y then ⌊y⌋ + 1
  else if ⌊y⌋ % 2 = 0 then ⌊y⌋ else ⌊y⌋ + 1

/-- Rounding to two decimal places: `Series.round(2)`. -/
def round2 (q : ℚ) : ℚ := (rhe (q * 100) : ℚ) / 100

/-- Python `int(...)` / `Series.astype(int)`: truncation toward zero. -/
def pyInt (q : ℚ) : ℤ := if q < 0 then -⌊-q⌋ else ⌊q⌋

/-- One row of the election DataFrame (one (constituency, party) pair).
The two derived columns are added by `derive` (lines 119-120 of the
source); before derivation they hold the defaults `0` and `none`. -/
structure VoteRecord where
  region : String
  constituency_id : ℕ
  constituency_name : String
  total_voters : ℕ
  party : String
  votes : ℕ
  counting_status : String
  counted_votes : ℕ
  total_constituency_votes : ℕ := 0
  vote_share_pct : Option ℚ := none
  deriving DecidableEq, Repr

/-- Sum of `votes` over all rows of constituency `c`:
`df.groupby('constituency_name')['votes'].transform('sum')` evaluated for
a row whose `constituency_name` is `c` (source line 119). -/
def totalFor (rs : List VoteRecord) (c : String) : ℕ :=
  ((rs.filter (fun r => r.constituency_name = c)).map (fun r => r.votes)).sum

/-- Derivation of one row (source lines 119-120).  `vote_share_pct` is
`votes / total_constituency_votes * 100` rounded to 2 decimals; when the
constituency total is `0` every `votes` entry of the group is `0` (the
row itself belongs to the group), so pandas computes `0/0 = NaN`,
modelled as `none`. -/
def deriveRow (rs : List VoteRecord) (r : VoteRecord) : VoteRecord :=
  let t := totalFor rs r.constituency_name
  { r with
    total_constituency_votes := t
    vote_share_pct :=
      if t = 0 then none else some (round2 ((r.votes : ℚ) / (t : ℚ) * 100)) }

/-- The derivation step (source lines 119-120): add the two computed
columns to every row. -/
def derive (rs : List VoteRecord) : List VoteRecord :=
  rs.map (deriveRow rs)

/-- One row of the output of `predict_winner_ensemble`.  `std_votes_sq`
holds the square of the `std` aggregate (the sample variance,
`ddof = 1`); the standard deviation itself is its square root, which is
irrational in general and is used nowhere downstream. -/
structure PartyStats where
  party : String
  total_votes : ℕ
  avg_votes : ℚ
  std_votes_sq : Option ℚ
  count : ℕ
  avg_share : Option ℚ
  score : Option ℚ
  win_probability : Option ℚ
  predicted_votes : ℕ
  deriving DecidableEq, Repr

/-- Insert into a list ordered by the boolean relation `le`. -/
def insertLe {α : Type} (le : α → α → Bool) (a : α) : List α → List α
  | [] => [a]
  | b :: l => if le a b then a :: b :: l else b :: insertLe le a l

/-- Insertion sort by the boolean relation `le`. -/
def isortBy {α : Type} (le : α → α → Bool) : List α → List α
  | [] => []
  | a :: l => insertLe le a (isortBy le l)

/-- Ascending order on group keys, as produced by pandas
`groupby(sort=True)`. -/
def strLeB (a b : String) : Bool := decide (a ≤ b)

/-- Descending order on optional values with `NaN` (`none`) last. -/
def optGeB : Option ℚ → Option ℚ → Bool
  | some x, some y => decide (y ≤ x)
  | some _, none => true
  | none, some _ => false
  | none, none => true

/-- Descending order on `win_probability` with `NaN` (`none`) last: the
order produced by `sort_values('win_probability', ascending=False)`,
whose default `na_position` is `'last'`. -/
def wpGeB (a b : PartyStats) : Bool :=
  optGeB a.win_probability b.win_probability

/-- The distinct party values of the record set, in ascending order:
the group keys of `df.groupby('party')`. -/
def partyKeys (rs : List VoteRecord) : List String :=
  isortBy strLeB ((rs.map (fun r => r.party)).dedup)

/-- The rows of party `p`. -/
def groupOf (rs : List VoteRecord) (p : String) : List VoteRecord :=
  rs.filter (fun r => r.party = p)

/-- Aggregate `('votes', 'sum')` for party `p`. -/
def partyTotal (rs : List VoteRecord) (p : String) : ℕ :=
  ((groupOf rs p).map (fun r => r.votes)).sum

/-- Aggregate `('votes', 'count')` for party `p` (an `int` column has no
`NaN`, so this is the group size). -/
def partyCount (rs : List VoteRecord) (p : String) : ℕ :=
  (groupOf rs p).length

/-- The non-`NaN` `vote_share_pct` values of party `p`'s rows. -/
def shareVals (rs : List VoteRecord) (p : String) : List ℚ :=
  (groupOf rs p).filterMap (fun r => r.vote_share_pct)

/-- Aggregate `('vote_share_pct', 'mean')` for party `p`: pandas `mean`
skips `NaN` values and returns `NaN` when no value remains. -/
def avgShare (rs : List VoteRecord) (p : String) : Option ℚ :=
  let vs := shareVals rs p
  if vs = [] then none else some (vs.sum / (vs.length : ℚ))

/-- Sample variance (`ddof = 1`) of a list, i.e. the square of the
`('votes', 'std')` aggregate; `NaN` (`none`) when fewer than two
values. -/
def sampleVar (l : List ℚ) : Option ℚ :=
  if l.length ≤ 1 then none
  else
    let m := l.sum / (l.length : ℚ)
    some ((l.map (fun x => (x - m) * (x - m))).sum / ((l.length - 1 : ℕ) : ℚ))

/-- The weighted score of party `p` (source lines 176-180):
`total_votes * 0.5 + count * 1000 * 0.3 + avg_share * 100 * 0.2`.
It is `NaN` exactly when `avg_share` is. -/
def partyScore (rs : List VoteRecord) (p : String) : Option ℚ :=
  (avgShare rs p).map (fun a =>
    (partyTotal rs p : ℚ) * (5/10) + (partyCount rs p : ℚ) * 1000 * (3/10)
      + a * 100 * (2/10))

/-- `party_stats['score'].sum()` (source line 182): pandas `Series.sum`
skips `NaN` values (and an empty sum is `0`). -/
def scoreSum (rs : List VoteRecord) : ℚ :=
  (((partyKeys rs).map (partyScore rs)).filterMap id).sum

/-- The aggregate row of party `p` (source lines 168-183), given the
score total `S`.  `win_probability` is `score / S * 100` rounded to two
decimals; when `S = 0` the float division yields a non-finite value
(`NaN` or `±inf`), modelled as `none`.  `predicted_votes` is
`(total_votes * 1.05).astype(int)`, i.e. truncation of
`total_votes * 21/20`, which for a natural total is `total * 21 / 20`
in natural-number division. -/
def mkStats (rs : List VoteRecord) (S : ℚ) (p : String) : PartyStats :=
  { party := p
    total_votes := partyTotal rs p
    avg_votes := (partyTotal rs p : ℚ) / (partyCount rs p : ℚ)
    std_votes_sq := sampleVar ((groupOf rs p).map (fun r => (r.votes : ℚ)))
    count := partyCount rs p
    avg_share := avgShare rs p
    score := partyScore rs p
    win_probability :=
      (partyScore rs p).bind (fun sc =>
        if S = 0 then none else some (round2 (sc / S * 100)))
    predicted_votes := partyTotal rs p * 21 / 20 }

/-- The aggregate rows, one per party, in group-key order (the DataFrame
`party_stats` just before the final `sort_values`). -/
def statsList (rs : List VoteRecord) : List PartyStats :=
  (partyKeys rs).map (mkStats rs (scoreSum rs))

/-- The scoring step `predict_winner_ensemble` (source lines 166-185):
group by party, aggregate, score, normalise, project, and sort
descending by `win_probability`. -/
def predict_winner_ensemble (rs : List VoteRecord) : List PartyStats :=
  isortBy wpGeB (statsList rs)

/-- Sum of the (finite) `win_probability` values of the scoring output. -/
def wpSum (rs : List VoteRecord) : ℚ :=
  ((predict_winner_ensemble rs).filterMap (fun p => p.win_probability)).sum

/-- Sum of the (finite) `vote_share_pct` values of constituency `c` in
the derived record set. -/
def shareSum (rs : List VoteRecord) (c : String) : ℚ :=
  (((derive rs).filter (fun r => r.constituency_name = c)).filterMap
    (fun r => r.vote_share_pct)).sum

/-- Number of rows of constituency `c`. -/
def cSize (rs : List VoteRecord) (c : String) : ℕ :=
  (rs.filter (fun r => r.constituency_name = c)).length

/-- Well-formedness of the `vote_share_pct` column: every value is a
finite, non-negative number (true of every record set produced by
`derive` from data whose constituency totals are positive, in particular
of the generated data). -/
def GoodShares (rs : List VoteRecord) : Prop :=
  ∀ r ∈ rs, r.vote_share_pct.isSome = true ∧ 0 ≤ r.vote_share_pct.getD 0

instance : DecidablePred GoodShares := fun rs =>
  inferInstanceAs (Decidable (∀ r ∈ rs, _ ∧ _))

/-- Abstract model of the NumPy global pseudo-random generator: a state
type `σ`, the re-seeding operation `np.random.seed`, and the three draw
operations the synthesizer uses.  `randint a b` draws an integer in
`[a, b)`, `uniform a b` draws a rational in `[a, b)`, and `choice3`
draws one of `'Complete'`, `'In Progress'`, `'Pending'` with weights
`0.7 / 0.25 / 0.05`.  Any deterministic implementation (NumPy's Mersenne
Twister in particular) is an instance. -/
structure RNG (σ : Type) where
  seed : ℕ → σ
  randint : ℕ → ℕ → σ → ℕ × σ
  uniform : ℚ → ℚ → σ → ℚ × σ
  choice3 : σ → String × σ

/-- The party strength range of source lines 91-100. -/
def strengthRange (party : String) : ℚ × ℚ :=
  if party = "Party A" then (25/100, 35/100)
  else if party = "Party B" then (20/100, 30/100)
  else if party = "Party C" then (15/100, 25/100)
  else if party = "Party D" then (10/100, 20/100)
  else (5/100, 15/100)

/-- The fixed region list of source line 79. -/
def regionsList : List String := ["North", "South", "East", "West", "Central"]

/-- The fixed party list of source line 80. -/
def partiesList : List String :=
  ["Party A", "Party B", "Party C", "Party D", "Independent"]

/-- The constituency ids `range(1, 21)` of source line 84. -/
def constIds : List ℕ := (List.range 20).map (· + 1)

/-- One row of the inner loop of `generate_election_data` (source lines
88-116), threading the RNG state in Python evaluation order: turnout,
strength, status, counted fraction.  `int(...)` truncates toward zero;
NumPy's `uniform` draws lie inside the requested non-negative ranges,
so the `Int.toNat` conversion is exact for the library's outputs. -/
def genParty {σ : Type} (g : RNG σ) (tv : ℕ) (region name : String)
    (cid : ℕ) (party : String) (s : σ) : VoteRecord × σ :=
  let (bt, s1) := g.uniform (6/10) (85/100) s
  let pr := strengthRange party
  let (ps, s2) := g.uniform pr.1 pr.2 s1
  let votes := (pyInt ((tv : ℚ) * bt * ps)).toNat
  let (cst, s3) := g.choice3 s2
  let (cf, s4) := g.uniform (75/100) (95/100) s3
  ({ region := region
     constituency_id := cid
     constituency_name := name
     total_voters := tv
     party := party
     votes := votes
     counting_status := cst
     counted_votes := (pyInt ((votes : ℚ) * cf)).toNat }, s4)

/-- The party loop of source lines 88-116. -/
def genParties {σ : Type} (g : RNG σ) (tv : ℕ) (region name : String)
    (cid : ℕ) : List String → σ → List VoteRecord × σ
  | [], s => ([], s)
  | p :: ps, s =>
    let (r, s1) := genParty g tv region name cid p s
    let (rest, s2) := genParties g tv region name cid ps s1
    (r :: rest, s2)

/-- The constituency loop of source lines 84-116. -/
def genConsts {σ : Type} (g : RNG σ) (region : String) :
    List ℕ → σ → List VoteRecord × σ
  | [], s => ([], s)
  | cid :: cids, s =>
    let (tv, s1) := g.randint 50000 200000 s
    let name := region ++ " Constituency " ++ toString cid
    let (rows, s2) := genParties g tv region name cid partiesList s1
    let (rest, s3) := genConsts g region cids s2
    (rows ++ rest, s3)

/-- The region loop of source lines 83-116. -/
def genRegions {σ : Type} (g : RNG σ) :
    List String → σ → List VoteRecord × σ
  | [], s => ([], s)
  | rg :: rgs, s =>
    let (rows, s1) := genConsts g rg constIds s
    let (rest, s2) := genRegions g rgs s1
    (rows ++ rest, s2)

/-- The synthesizer `generate_election_data` (source lines 74-122).  The
incoming global RNG state `s` is discarded by `np.random.seed(42)`
(source line 77); the rows are then generated and the two derived
columns added (source lines 118-120). -/
def generate_election_data {σ : Type} (g : RNG σ) (s : σ) : List VoteRecord :=
  let _ := s
  let s0 := g.seed 42
  derive (genRegions g regionsList s0).1

/-- The score of party `p` with the `NaN` case defaulted to `0`; under
`GoodShares` this is the (finite) score itself. -/
def scD (rs : List VoteRecord) (p : String) : ℚ :=
  (partyScore rs p).getD 0

/-- Shorthand for building one concrete row of test data (constituency
`"c"` of region `"R"`). -/
def mkRow (p : String) (v : ℕ) (sh : Option ℚ) : VoteRecord :=
  { region := "R"
    constituency_id := 1
    constituency_name := "c"
    total_voters := 1000
    party := p
    votes := v
    counting_status := "Complete"
    counted_votes := v
    total_constituency_votes := 0
    vote_share_pct := sh }

/-- Concrete input for claim C1: one row, share 50%. -/
def rsC1 : List VoteRecord := [mkRow "A" 10 (some 50)]

/-- Concrete input for claim C3: a constituency whose votes total 0. -/
def rsC3 : List VoteRecord := [mkRow "A" 0 none]

/-- Concrete input for claim C4: a single party with 31 votes, whose
`predicted_votes` truncates 32.55 to 32 while the nearest integer is 33. -/
def rsC4 : List VoteRecord := [mkRow "A" 31 (some 0)]

/-- Concrete witness input for claim C4. -/
def rsC4w : List VoteRecord := [mkRow "A" 20 (some 100)]

/-- Concrete input for claim C6: one constituency with votes 1,1,1,1,3;
the five rounded shares are 14.29 (x4) and 42.86, summing to 100.02. -/
def rsC6 : List VoteRecord :=
  [mkRow "A" 1 none, mkRow "B" 1 none, mkRow "C" 1 none,
   mkRow "D" 1 none, mkRow "E" 3 none]

/-- Concrete witness input for claim C6. -/
def rsC6w : List VoteRecord := [mkRow "A" 1 none]

/-- Concrete input for claim C7: six equal parties in one constituency;
every rounded share and win probability is 16.67, summing to 100.02. -/
def rsC7 : List VoteRecord :=
  derive [mkRow "A" 1 none, mkRow "B" 1 none, mkRow "C" 1 none,
          mkRow "D" 1 none, mkRow "E" 1 none, mkRow "F" 1 none]

/-- Concrete witness input for claim C7. -/
def rsC7w : List VoteRecord := [mkRow "A" 10 (some 50)]

/-- Concrete witness input for claim C8. -/
def rsC8w : List VoteRecord := [mkRow "A" 5 (some 100)]

/-- Concrete witness input for claim C10. -/
def rsC10w : List VoteRecord := [mkRow "A" 7 (some 25)]

/-! Basic properties of the rounding functions. -/

theorem rhe_abs_le (y : ℚ) : |(rhe y : ℚ) - y| ≤ 1/2 := by
  have h0 : 0 ≤ Int.fract y := Int.fract_nonneg y
  have h1 : Int.fract y < 1 := Int.fract_lt_one y
  have hd : Int.fract y = y - ⌊y⌋ := rfl
  have hc : ((⌊y⌋ + 1 : ℤ) : ℚ) = (⌊y⌋ : ℚ) + 1 := by push_cast; ring
  rw [abs_le]
  unfold rhe
  split
  · rename_i hA
    constructor <;> linarith
  · rename_i hA
    split
    · rename_i hB
      rw [hc]
      constructor <;> linarith
    · rename_i hB
      split
      · constructor <;> linarith
      · rw [hc]
        constructor <;> linarith

theorem rhe_nonneg {y : ℚ} (hy : 0 ≤ y) : 0 ≤ rhe y := by
  have h : 0 ≤ ⌊y⌋ := Int.floor_nonneg.mpr hy
  unfold rhe
  split
  · exact h
  · split
    · omega
    · split <;> omega

theorem rhe_le_of_le {y : ℚ} {n : ℤ} (h : y ≤ (n : ℚ)) : rhe y ≤ n := by
  have h1 := (abs_le.mp (rhe_abs_le y)).2
  have h2 : (rhe y : ℚ) < (n : ℚ) + 1 := by linarith
  have h3 : rhe y < n + 1 := by exact_mod_cast h2
  omega

theorem round2_abs_le (q : ℚ) : |round2 q - q| ≤ 1/200 := by
  have h := rhe_abs_le (q * 100)
  unfold round2
  have he : (rhe (q * 100) : ℚ) / 100 - q = ((rhe (q * 100) : ℚ) - q * 100) / 100 := by
    ring
  rw [he, abs_div, abs_of_pos (by norm_num : (0:ℚ) < 100)]
  linarith

theorem round2_nonneg {q : ℚ} (h : 0 ≤ q) : 0 ≤ round2 q := by
  have hn : 0 ≤ rhe (q * 100) := rhe_nonneg (by positivity)
  have hc : (0:ℚ) ≤ (rhe (q * 100) : ℚ) := by exact_mod_cast hn
  unfold round2
  positivity

theorem round2_le_100 {q : ℚ} (h : q ≤ 100) : round2 q ≤ 100 := by
  have hn : rhe (q * 100) ≤ (10000 : ℤ) := by
    apply rhe_le_of_le
    push_cast
    linarith
  have hc : (rhe (q * 100) : ℚ) ≤ 10000 := by exact_mod_cast hn
  unfold round2
  linarith

theorem sum_map_round2_abs_le (l : List ℚ) :
    |(l.map round2).sum - l.sum| ≤ (l.length : ℚ) / 200 := by
  induction l with
  | nil => simp
  | cons x t ih =>
    simp only [List.map_cons, List.sum_cons, List.length_cons]
    have h1 := round2_abs_le x
    calc |round2 x + (t.map round2).sum - (x + t.sum)|
        = |(round2 x - x) + ((t.map round2).sum - t.sum)| := by ring_nf
      _ ≤ |round2 x - x| + |(t.map round2).sum - t.sum| := abs_add _ _
      _ ≤ 1/200 + (t.length : ℚ) / 200 := by linarith
      _ = ((t.length : ℚ) + 1) / 200 := by ring
      _ = (((t.length + 1 : ℕ)) : ℚ) / 200 := by push_cast; ring

/-! Generic list lemmas. -/

theorem filterMap_eq_map_of_forall {α β : Type} {f : α → Option β} {g : α → β} :
    ∀ {l : List α}, (∀ x ∈ l, f x = some (g x)) → l.filterMap f = l.map g
  | [], _ => rfl
  | x :: t, h => by
    rw [List.filterMap_cons, h x (List.mem_cons_self x t), List.map_cons,
      filterMap_eq_map_of_forall (fun y hy => h y (List.mem_cons_of_mem x hy))]

/-! Correctness of the insertion sort used to model pandas sorting. -/

theorem insertLe_perm {α : Type} (le : α → α → Bool) (a : α) :
    ∀ l : List α, (insertLe le a l).Perm (a :: l)
  | [] => List.Perm.refl _
  | b :: t => by
    unfold insertLe
    split
    · exact List.Perm.refl _
    · exact ((insertLe_perm le a t).cons b).trans (List.Perm.swap a b t)

theorem isortBy_perm {α : Type} (le : α → α → Bool) :
    ∀ l : List α, (isortBy le l).Perm l
  | [] => List.Perm.refl _
  | a :: t => by
    unfold isortBy
    exact (insertLe_perm le a (isortBy le t)).trans ((isortBy_perm le t).cons a)

theorem mem_insertLe {α : Type} {le : α → α → Bool} {a y : α} {l : List α} :
    y ∈ insertLe le a l ↔ y = a ∨ y ∈ l := by
  rw [(insertLe_perm le a l).mem_iff, List.mem_cons]

theorem pairwise_insertLe {α : Type} {le : α → α → Bool}
    (htot : ∀ a b, le a b = true ∨ le b a = true)
    (htr : ∀ a b c, le a b = true → le b c = true → le a c = true) (a : α) :
    ∀ {l : List α}, l.Pairwise (fun x y => le x y = true) →
      (insertLe le a l).Pairwise (fun x y => le x y = true)
  | [], _ => by simp [insertLe]
  | b :: t, hl => by
    rcases List.pairwise_cons.mp hl with ⟨hbt, htp⟩
    unfold insertLe
    split
    · rename_i hab
      exact List.pairwise_cons.mpr
        ⟨fun y hy => by
          rcases List.mem_cons.mp hy with rfl | hyt
          · exact hab
          · exact htr a b y hab (hbt y hyt), hl⟩
    · rename_i hab
      have hba : le b a = true := by
        rcases htot a b with h | h
        · exact absurd h hab
        · exact h
      exact List.pairwise_cons.mpr
        ⟨fun y hy => by
          rcases mem_insertLe.mp hy with rfl | hyt
          · exact hba
          · exact hbt y hyt, pairwise_insertLe htot htr a htp⟩

theorem pairwise_isortBy {α : Type} {le : α → α → Bool}
    (htot : ∀ a b, le a b = true ∨ le b a = true)
    (htr : ∀ a b c, le a b = true → le b c = true → le a c = true) :
    ∀ l : List α, (isortBy le l).Pairwise (fun x y => le x y = true)
  | [] => List.Pairwise.nil
  | a :: t => by
    unfold isortBy
    exact pairwise_insertLe htot htr a (pairwise_isortBy htot htr t)

theorem optGeB_total (a b : Option ℚ) : optGeB a b = true ∨ optGeB b a = true := by
  cases a with
  | none => cases b <;> simp [optGeB]
  | some x =>
    cases b with
    | none => simp [optGeB]
    | some y => simpa only [optGeB, decide_eq_true_eq] using (le_total x y).symm

theorem optGeB_trans (a b c : Option ℚ) (h1 : optGeB a b = true)
    (h2 : optGeB b c = true) : optGeB a c = true := by
  cases a with
  | none => cases b <;> cases c <;> simp_all [optGeB]
  | some x =>
    cases b with
    | none => cases c <;> simp_all [optGeB]
    | some y =>
      cases c with
      | none => simp [optGeB]
      | some z =>
        simp only [optGeB, decide_eq_true_eq] at h1 h2 ⊢
        exact le_trans h2 h1

theorem wpGeB_total (a b : PartyStats) : wpGeB a b = true ∨ wpGeB b a = true :=
  optGeB_total _ _

theorem wpGeB_trans (a b c : PartyStats) (h1 : wpGeB a b = true)
    (h2 : wpGeB b c = true) : wpGeB a c = true :=
  optGeB_trans _ _ _ h1 h2

theorem wpGeB_refl (a : PartyStats) : wpGeB a a = true := by
  unfold wpGeB
  cases a.win_probability <;> simp [optGeB]

theorem strLeB_total (a b : String) : strLeB a b = true ∨ strLeB b a = true := by
  unfold strLeB
  simp only [decide_eq_true_eq]
  exact le_total a b

theorem strLeB_trans (a b c : String) (h1 : strLeB a b = true)
    (h2 : strLeB b c = true) : strLeB a c = true := by
  unfold strLeB at h1 h2 ⊢
  simp only [decide_eq_true_eq] at h1 h2 ⊢
  exact le_trans h1 h2

/-! Helper lemmas about the grouped aggregation. -/

theorem mem_partyKeys {rs : List VoteRecord} {p : String} :
    p ∈ partyKeys rs ↔ ∃ r ∈ rs, r.party = p := by
  unfold partyKeys
  rw [(isortBy_perm strLeB _).mem_iff, List.mem_dedup, List.mem_map]

theorem mem_of_mem_groupOf {rs : List VoteRecord} {p : String} {r : VoteRecord}
    (h : r ∈ groupOf rs p) : r ∈ rs :=
  (List.mem_filter.mp h).1

theorem groupOf_ne_nil {rs : List VoteRecord} {p : String}
    (h : p ∈ partyKeys rs) : groupOf rs p ≠ [] := by
  rcases mem_partyKeys.mp h with ⟨r, hr, hp⟩
  have hm : r ∈ groupOf rs p := by
    unfold groupOf
    rw [List.mem_filter]
    exact ⟨hr, by simp [hp]⟩
  intro hnil
  rw [hnil] at hm
  exact absurd hm (List.not_mem_nil r)

theorem partyCount_pos {rs : List VoteRecord} {p : String}
    (h : p ∈ partyKeys rs) : 0 < partyCount rs p := by
  unfold partyCount
  exact List.length_pos.mpr (groupOf_ne_nil h)

theorem shareVals_eq {rs : List VoteRecord} (h : GoodShares rs) (p : String) :
    shareVals rs p = (groupOf rs p).map (fun r => r.vote_share_pct.getD 0) := by
  unfold shareVals
  apply filterMap_eq_map_of_forall
  intro r hr
  rcases Option.isSome_iff_exists.mp (h r (mem_of_mem_groupOf hr)).1 with ⟨q, hq⟩
  rw [hq]
  simp

theorem shareVals_nonneg {rs : List VoteRecord} (h : GoodShares rs)
    (p : String) : ∀ x ∈ shareVals rs p, 0 ≤ x := by
  rw [shareVals_eq h]
  intro x hx
  rcases List.mem_map.mp hx with ⟨r, hr, rfl⟩
  exact (h r (mem_of_mem_groupOf hr)).2

theorem avgShare_some {rs : List VoteRecord} {p : String} (h : GoodShares rs)
    (hp : p ∈ partyKeys rs) : ∃ a, avgShare rs p = some a ∧ 0 ≤ a := by
  unfold avgShare
  have hlen : (shareVals rs p).length = partyCount rs p := by
    rw [shareVals_eq h, List.length_map]
    rfl
  have hpos := partyCount_pos hp
  have hne : shareVals rs p ≠ [] := by
    intro hnil
    rw [hnil] at hlen
    simp at hlen
    omega
  rw [if_neg hne]
  refine ⟨_, rfl, ?_⟩
  have h0 : (0:ℚ) ≤ (shareVals rs p).sum := List.sum_nonneg (shareVals_nonneg h p)
  have h1 : (0:ℚ) ≤ ((shareVals rs p).length : ℚ) := Nat.cast_nonneg _
  exact div_nonneg h0 h1

theorem partyScore_some {rs : List VoteRecord} {p : String} (h : GoodShares rs)
    (hp : p ∈ partyKeys rs) :
    partyScore rs p = some (scD rs p) ∧
      300 * (partyCount rs p : ℚ) ≤ scD rs p ∧ 0 < scD rs p := by
  rcases avgShare_some h hp with ⟨a, ha, ha0⟩
  have hps : partyScore rs p = some ((partyTotal rs p : ℚ) * (5/10)
      + (partyCount rs p : ℚ) * 1000 * (3/10) + a * 100 * (2/10)) := by
    unfold partyScore
    rw [ha, Option.map_some']
  have hsc : scD rs p = (partyTotal rs p : ℚ) * (5/10)
      + (partyCount rs p : ℚ) * 1000 * (3/10) + a * 100 * (2/10) := by
    unfold scD
    rw [hps, Option.getD_some]
  have htv : (0:ℚ) ≤ (partyTotal rs p : ℚ) := Nat.cast_nonneg _
  have hcnt : (1:ℚ) ≤ (partyCount rs p : ℚ) := by
    exact_mod_cast partyCount_pos hp
  refine ⟨by rw [hps, hsc], ?_, ?_⟩
  · rw [hsc]
    linarith
  · rw [hsc]
    linarith

theorem scoreSum_eq {rs : List VoteRecord} (h : GoodShares rs) :
    scoreSum rs = ((partyKeys rs).map (scD rs)).sum := by
  unfold scoreSum
  rw [List.filterMap_map]
  have he : ((partyKeys rs).filterMap (id ∘ partyScore rs))
      = (partyKeys rs).map (scD rs) := by
    apply filterMap_eq_map_of_forall
    intro k hk
    exact (partyScore_some h hk).1
  rw [he]

theorem scD_le_scoreSum {rs : List VoteRecord} {p : String} (h : GoodShares rs)
    (hp : p ∈ partyKeys rs) : scD rs p ≤ scoreSum rs := by
  rw [scoreSum_eq h]
  apply List.single_le_sum
  · intro x hx
    rcases List.mem_map.mp hx with ⟨k, hk, rfl⟩
    exact le_of_lt (partyScore_some h hk).2.2
  · exact List.mem_map.mpr ⟨p, hp, rfl⟩

theorem scoreSum_pos {rs : List VoteRecord} (hne : rs ≠ [])
    (h : GoodShares rs) : 0 < scoreSum rs := by
  rcases List.exists_mem_of_ne_nil rs hne with ⟨r, hr⟩
  have hp : r.party ∈ partyKeys rs := mem_partyKeys.mpr ⟨r, hr, rfl⟩
  calc (0:ℚ) < scD rs r.party := (partyScore_some h hp).2.2
    _ ≤ scoreSum rs := scD_le_scoreSum h hp

theorem mem_predict {rs : List VoteRecord} {p : PartyStats} :
    p ∈ predict_winner_ensemble rs ↔
      ∃ k ∈ partyKeys rs, p = mkStats rs (scoreSum rs) k := by
  unfold predict_winner_ensemble statsList
  rw [(isortBy_perm wpGeB _).mem_iff, List.mem_map]
  constructor
  · rintro ⟨k, hk, h⟩
    exact ⟨k, hk, h.symm⟩
  · rintro ⟨k, hk, h⟩
    exact ⟨k, hk, h.symm⟩

theorem predict_ne_nil {rs : List VoteRecord} (hne : rs ≠ []) :
    predict_winner_ensemble rs ≠ [] := by
  rcases List.exists_mem_of_ne_nil rs hne with ⟨r, hr⟩
  have hp : r.party ∈ partyKeys rs := mem_partyKeys.mpr ⟨r, hr, rfl⟩
  have hm : mkStats rs (scoreSum rs) r.party ∈ predict_winner_ensemble rs :=
    mem_predict.mpr ⟨r.party, hp, rfl⟩
  intro h0
  rw [h0] at hm
  exact absurd hm (List.not_mem_nil _)

theorem mkStats_wp {rs : List VoteRecord} {S sc : ℚ} {k : String} (hS : S ≠ 0)
    (hsc : partyScore rs k = some sc) :
    (mkStats rs S k).win_probability = some (round2 (sc / S * 100)) := by
  show (partyScore rs k).bind _ = _
  rw [hsc, Option.some_bind, if_neg hS]

/-! Helper lemmas about the derivation step. -/

theorem deriveRow_name (rs : List VoteRecord) (r : VoteRecord) :
    (deriveRow rs r).constituency_name = r.constituency_name := rfl

theorem deriveRow_votes (rs : List VoteRecord) (r : VoteRecord) :
    (deriveRow rs r).votes = r.votes := rfl

theorem totalFor_derive (rs : List VoteRecord) (c : String) :
    totalFor (derive rs) c = totalFor rs c := by
  unfold totalFor derive
  rw [List.filter_map, List.map_map]
  rfl

theorem derive_filter (rs : List VoteRecord) (c : String) :
    (derive rs).filter (fun r => r.constituency_name = c)
      = (rs.filter (fun r => r.constituency_name = c)).map (deriveRow rs) := by
  unfold derive
  rw [List.filter_map]
  rfl

/-! Sum manipulation lemmas. -/

theorem sum_map_div_mul (t : ℚ) :
    ∀ l : List ℚ, (l.map (fun x => x / t * 100)).sum = l.sum / t * 100
  | [] => by simp
  | x :: xs => by
    simp only [List.map_cons, List.sum_cons, sum_map_div_mul t xs]
    ring

theorem sum_map_votes_cast :
    ∀ l : List VoteRecord,
      (l.map (fun r => (r.votes : ℚ))).sum = (((l.map (fun r => r.votes)).sum : ℕ) : ℚ)
  | [] => by simp
  | r :: t => by
    simp only [List.map_cons, List.sum_cons, sum_map_votes_cast t]
    push_cast
    ring

theorem deriveRow_derive (rs : List VoteRecord) (r : VoteRecord) :
    deriveRow (derive rs) (deriveRow rs r) = deriveRow rs r := by
  show ({ deriveRow rs r with
      total_constituency_votes :=
        totalFor (derive rs) (deriveRow rs r).constituency_name
      vote_share_pct :=
        if totalFor (derive rs) (deriveRow rs r).constituency_name = 0
        then none
        else some (round2 (((deriveRow rs r).votes : ℚ)
          / (totalFor (derive rs) (deriveRow rs r).constituency_name : ℚ)
          * 100)) } : VoteRecord)
    = deriveRow rs r
  rw [deriveRow_name, deriveRow_votes, totalFor_derive]
  rfl

/-! The claims. -/

/-- Claim C5: the synthesizer is deterministic — two calls with the same
seed produce identical record sets, every column equal row for row.  In
the source the seed is the constant `42` and `np.random.seed(42)`
overwrites whatever state the global generator had, so the output is
independent of the incoming state: for any RNG implementation `g` and
any two prior states `s1`, `s2`, the two calls agree. -/
theorem C5_generate_deterministic {σ : Type} (g : RNG σ) (s1 s2 : σ) :
    generate_election_data g s1 = generate_election_data g s2 := rfl

/-- Claim C9: the derivation step is idempotent — `derive (derive rs)`
equals `derive rs`; re-deriving the already-present columns recomputes
them from `constituency_name` and `votes`, which `derive` leaves
untouched, so nothing is double-counted. -/
theorem C9_derive_idempotent (rs : List VoteRecord) :
    derive (derive rs) = derive rs := by
  have h1 : derive (derive rs)
      = (rs.map (deriveRow rs)).map (deriveRow (derive rs)) := rfl
  rw [h1, List.map_map]
  show _ = rs.map (deriveRow rs)
  apply List.map_congr_left
  intro r _
  exact deriveRow_derive rs r

/-- Claim C2 (counterexample): on the empty record set the scoring step
does not fail with any `EmptyInputError` — no such error exists in the
code; the pandas pipeline runs through (an empty groupby produces an
empty aggregate, the empty `sum` is `0`, and no division is evaluated
because there is no row) and an empty DataFrame is returned.  The
embedding is accordingly a total function, and its value at `[]` is
`[]`. -/
theorem C2_empty_counterexample : predict_winner_ensemble [] = [] := rfl

/-- Claim C2 (amended): invoked on an empty record set (zero rows), the
scoring step raises no error and returns an empty output: it neither
divides by zero nor produces any row. -/
theorem C2_empty_amended (rs : List VoteRecord) (h : rs.length = 0) :
    predict_winner_ensemble rs = [] := by
  rw [List.length_eq_zero] at h
  subst h
  rfl

/-- Witness for the amended claim C2 at the concrete empty input. -/
theorem C2_empty_amended_witness : predict_winner_ensemble [] = [] :=
  C2_empty_amended [] rfl

/-- Claim C3 (counterexample): for a constituency whose votes total 0
(here a single row with 0 votes), the derivation step does not define
`vote_share_pct` as `0`: pandas evaluates `0 / 0 = NaN` (modelled
`none`), so the column is `NaN`, not `0`, on every row of the
constituency. -/
theorem C3_zero_total_counterexample :
    totalFor rsC3 "c" = 0 ∧ ¬ ∀ r ∈ derive rsC3, r.vote_share_pct = some 0 := by
  with_unfolding_all decide

/-- Claim C3 (amended): for every constituency whose
`total_constituency_votes` is 0, the derivation step yields
`vote_share_pct = NaN` (modelled `none`) for all of that constituency's
rows — it does not fail, but neither does it define the share as 0. -/
theorem C3_zero_total_amended (rs : List VoteRecord) (r : VoteRecord)
    (hr : r ∈ derive rs) (h0 : totalFor rs r.constituency_name = 0) :
    r.vote_share_pct = none := by
  rcases List.mem_map.mp hr with ⟨r0, _, rfl⟩
  rw [deriveRow_name] at h0
  show (if totalFor rs r0.constituency_name = 0 then none
    else some (round2 ((r0.votes : ℚ)
      / (totalFor rs r0.constituency_name : ℚ) * 100))) = none
  rw [if_pos h0]

/-- Witness for the amended claim C3 at the concrete zero-vote input. -/
theorem C3_zero_total_amended_witness :
    (deriveRow rsC3 (mkRow "A" 0 none)).vote_share_pct = none :=
  C3_zero_total_amended rsC3 (deriveRow rsC3 (mkRow "A" 0 none))
    (by with_unfolding_all decide) (by with_unfolding_all decide)

/-- Claim C4 (counterexample): `predicted_votes` is not
`total_votes * 1.05` rounded to the nearest integer.  With a single
party totalling 31 votes, `31 * 1.05 = 32.55`: the code's
`astype(int)` truncates it to 32 while the nearest integer is 33. -/
theorem C4_predicted_votes_counterexample :
    ¬ ∀ p ∈ predict_winner_ensemble rsC4,
        (p.predicted_votes : ℤ) = rhe ((p.total_votes : ℚ) * (21/20)) := by
  with_unfolding_all decide

/-- Claim C4 (amended): for every party in the scoring output,
`predicted_votes` equals `total_votes * 1.05` truncated toward zero
(`astype(int)`), i.e. `total_votes * 21 / 20` in natural-number
division — not rounded to the nearest integer. -/
theorem C4_predicted_votes_amended (rs : List VoteRecord) (p : PartyStats)
    (hp : p ∈ predict_winner_ensemble rs) :
    p.predicted_votes = p.total_votes * 21 / 20 := by
  rcases mem_predict.mp hp with ⟨k, _, rfl⟩
  rfl

/-- Witness for the amended claim C4 at a concrete input. -/
theorem C4_predicted_votes_amended_witness :
    (mkStats rsC4w (scoreSum rsC4w) "A").predicted_votes
      = (mkStats rsC4w (scoreSum rsC4w) "A").total_votes * 21 / 20 :=
  C4_predicted_votes_amended rsC4w (mkStats rsC4w (scoreSum rsC4w) "A")
    (by with_unfolding_all decide)

/-- Claim C1: for every non-empty record set (with finite, non-negative
share values, as the derivation produces), every party row of the
scoring output satisfies
`score = total_votes * 0.5 + count * 1000 * 0.3 + avg_share * 100 * 0.2`
and `win_probability = round2 (score / (sum of all parties' scores) * 100)`,
where `scoreSum` is that sum. -/
theorem C1_scoring_formulas (rs : List VoteRecord) (hne : rs ≠ [])
    (hsh : GoodShares rs) :
    ∀ p ∈ predict_winner_ensemble rs, ∃ a sc,
      p.avg_share = some a ∧ p.score = some sc ∧
      sc = (p.total_votes : ℚ) * (5/10) + (p.count : ℚ) * 1000 * (3/10)
        + a * 100 * (2/10) ∧
      p.win_probability = some (round2 (sc / scoreSum rs * 100)) := by
  intro p hp
  rcases mem_predict.mp hp with ⟨k, hk, rfl⟩
  rcases avgShare_some hsh hk with ⟨a, ha, _⟩
  rcases partyScore_some hsh hk with ⟨hsc, _, _⟩
  have hS : scoreSum rs ≠ 0 := ne_of_gt (scoreSum_pos hne hsh)
  have hform : partyScore rs k = some ((partyTotal rs k : ℚ) * (5/10)
      + (partyCount rs k : ℚ) * 1000 * (3/10) + a * 100 * (2/10)) := by
    unfold partyScore
    rw [ha, Option.map_some']
  have hval : scD rs k = (partyTotal rs k : ℚ) * (5/10)
      + (partyCount rs k : ℚ) * 1000 * (3/10) + a * 100 * (2/10) := by
    unfold scD
    rw [hform, Option.getD_some]
  exact ⟨a, scD rs k, ha, hsc, hval, mkStats_wp hS hsc⟩

/-- Witness for claim C1 at a concrete one-row input. -/
theorem C1_scoring_formulas_witness :
    ∃ a sc,
      (mkStats rsC1 (scoreSum rsC1) "A").avg_share = some a ∧
      (mkStats rsC1 (scoreSum rsC1) "A").score = some sc ∧
      sc = ((mkStats rsC1 (scoreSum rsC1) "A").total_votes : ℚ) * (5/10)
        + ((mkStats rsC1 (scoreSum rsC1) "A").count : ℚ) * 1000 * (3/10)
        + a * 100 * (2/10) ∧
      (mkStats rsC1 (scoreSum rsC1) "A").win_probability
        = some (round2 (sc / scoreSum rsC1 * 100)) :=
  C1_scoring_formulas rsC1 (by with_unfolding_all decide)
    (by with_unfolding_all decide) (mkStats rsC1 (scoreSum rsC1) "A")
    (by with_unfolding_all decide)

/-- Claim C10 (implicit): for every non-empty input whose share column
is finite and non-negative, each party's score is at least
`300 * row_count` (hence strictly positive), so the score sum is
strictly positive and the `win_probability` division never has a zero
denominator. -/
theorem C10_scores_positive (rs : List VoteRecord) (hne : rs ≠ [])
    (hsh : GoodShares rs) :
    (∀ p ∈ predict_winner_ensemble rs, ∃ sc, p.score = some sc ∧
        300 * (p.count : ℚ) ≤ sc ∧ 0 < sc) ∧ 0 < scoreSum rs := by
  constructor
  · intro p hp
    rcases mem_predict.mp hp with ⟨k, hk, rfl⟩
    rcases partyScore_some hsh hk with ⟨hsc, hle, hpos⟩
    exact ⟨scD rs k, hsc, hle, hpos⟩
  · exact scoreSum_pos hne hsh

/-- Witness for claim C10 at a concrete one-row input. -/
theorem C10_scores_positive_witness :
    (∀ p ∈ predict_winner_ensemble rsC10w, ∃ sc, p.score = some sc ∧
        300 * (p.count : ℚ) ≤ sc ∧ 0 < sc) ∧ 0 < scoreSum rsC10w :=
  C10_scores_positive rsC10w (by with_unfolding_all decide)
    (by with_unfolding_all decide)

/-- Claim C8: on a non-empty record set the scoring step returns its
rows ordered descending by `win_probability` (`wpGeB`, with `NaN` last),
and the first row's `win_probability` is maximal — the predicted
winner. -/
theorem C8_sorted_descending (rs : List VoteRecord) (hne : rs ≠ []) :
    ∃ w l, predict_winner_ensemble rs = w :: l ∧
      (predict_winner_ensemble rs).Pairwise (fun a b => wpGeB a b = true) ∧
      ∀ p ∈ predict_winner_ensemble rs, wpGeB w p = true := by
  have hpw : (predict_winner_ensemble rs).Pairwise
      (fun a b => wpGeB a b = true) :=
    pairwise_isortBy wpGeB_total wpGeB_trans (statsList rs)
  rcases List.exists_cons_of_ne_nil (predict_ne_nil hne) with ⟨w, l, hwl⟩
  refine ⟨w, l, hwl, hpw, ?_⟩
  intro p hp
  rw [hwl] at hp hpw
  rcases List.mem_cons.mp hp with rfl | hpl
  · exact wpGeB_refl p
  · exact (List.pairwise_cons.mp hpw).1 p hpl

/-- Witness for claim C8 at a concrete one-row input. -/
theorem C8_sorted_descending_witness :
    ∃ w l, predict_winner_ensemble rsC8w = w :: l ∧
      (predict_winner_ensemble rsC8w).Pairwise (fun a b => wpGeB a b = true) ∧
      ∀ p ∈ predict_winner_ensemble rsC8w, wpGeB w p = true :=
  C8_sorted_descending rsC8w (by with_unfolding_all decide)

/-- Claim C6 (counterexample): the per-constituency sum of
`vote_share_pct` does not always lie in `[99.99, 100.01]`.  On a
constituency with votes `1,1,1,1,3` the rounded shares are
`14.29, 14.29, 14.29, 14.29, 42.86`, summing to `100.02`. -/
theorem C6_share_sum_counterexample :
    "c" ∈ (derive rsC6).map (fun r => r.constituency_name) ∧
      ¬ ((9999/100 : ℚ) ≤ shareSum rsC6 "c" ∧ shareSum rsC6 "c" ≤ 10001/100) := by
  with_unfolding_all decide

/-- Claim C6 (amended): for every constituency with a non-zero vote
total, the sum of the rounded `vote_share_pct` values differs from 100
by at most `0.005` per row of the constituency (each `round2` moves a
value by at most `0.005`, and the exact shares sum to exactly 100); the
claimed `[99.99, 100.01]` window holds only for constituencies of at
most two rows. -/
theorem C6_share_sum_amended (rs : List VoteRecord) (c : String)
    (h : totalFor rs c ≠ 0) :
    |shareSum rs c - 100| ≤ (cSize rs c : ℚ) / 200 := by
  unfold shareSum cSize
  rw [derive_filter]
  have hfm : ((rs.filter (fun r => r.constituency_name = c)).map
        (deriveRow rs)).filterMap (fun r => r.vote_share_pct)
      = (rs.filter (fun r => r.constituency_name = c)).map
          (fun r => round2 ((r.votes : ℚ) / (totalFor rs c : ℚ) * 100)) := by
    rw [List.filterMap_map]
    apply filterMap_eq_map_of_forall
    intro r hr
    have hname : r.constituency_name = c := by
      have h2 := (List.mem_filter.mp hr).2
      simpa using h2
    show (if totalFor rs r.constituency_name = 0 then none
      else some (round2 ((r.votes : ℚ)
        / (totalFor rs r.constituency_name : ℚ) * 100)))
      = some (round2 ((r.votes : ℚ) / (totalFor rs c : ℚ) * 100))
    rw [hname, if_neg h]
  rw [hfm]
  have e3 : (rs.filter (fun r => r.constituency_name = c)).map
        (fun r => round2 ((r.votes : ℚ) / (totalFor rs c : ℚ) * 100))
      = ((rs.filter (fun r => r.constituency_name = c)).map
          (fun r => (r.votes : ℚ) / (totalFor rs c : ℚ) * 100)).map round2 := by
    rw [List.map_map]
    rfl
  have e4 : (rs.filter (fun r => r.constituency_name = c)).map
        (fun r => (r.votes : ℚ) / (totalFor rs c : ℚ) * 100)
      = ((rs.filter (fun r => r.constituency_name = c)).map
          (fun r => (r.votes : ℚ))).map
            (fun x => x / (totalFor rs c : ℚ) * 100) := by
    rw [List.map_map]
    rfl
  have hm : ((rs.filter (fun r => r.constituency_name = c)).map
      (fun r => (r.votes : ℚ) / (totalFor rs c : ℚ) * 100)).sum = 100 := by
    rw [e4, sum_map_div_mul, sum_map_votes_cast]
    have e2 : ((rs.filter (fun r => r.constituency_name = c)).map
        (fun r => r.votes)).sum = totalFor rs c := rfl
    rw [e2]
    have ht : ((totalFor rs c : ℕ) : ℚ) ≠ 0 := Nat.cast_ne_zero.mpr h
    rw [div_self ht, one_mul]
  have hb := sum_map_round2_abs_le
    ((rs.filter (fun r => r.constituency_name = c)).map
      (fun r => (r.votes : ℚ) / (totalFor rs c : ℚ) * 100))
  rw [hm, List.length_map] at hb
  rw [e3]
  exact hb

/-- Witness for the amended claim C6 at a concrete one-row input. -/
theorem C6_share_sum_amended_witness :
    |shareSum rsC6w "c" - 100| ≤ (cSize rsC6w "c" : ℚ) / 200 :=
  C6_share_sum_amended rsC6w "c" (by with_unfolding_all decide)

/-- Claim C7 (counterexample): the sum of `win_probability` over the
scoring output is not always within `±0.01` of 100.  With six parties of
one equal-vote row each, every win probability rounds to `16.67` and the
sum is `100.02`. -/
theorem C7_probability_sum_counterexample :
    rsC7 ≠ [] ∧ ¬ |wpSum rsC7 - 100| ≤ 1/100 := by
  with_unfolding_all decide

/-- Claim C7 (amended): for every non-empty input whose share column is
finite and non-negative, each `win_probability` lies in `[0, 100]`, and
the sum of the win probabilities differs from 100 by at most `0.005`
per party (each `round2` moves a value by at most `0.005`, and the
exact normalised scores sum to exactly 100); the claimed `±0.01` window
holds only for at most two parties. -/
theorem C7_probability_sum_amended (rs : List VoteRecord) (hne : rs ≠ [])
    (hsh : GoodShares rs) :
    (∀ p ∈ predict_winner_ensemble rs, ∃ w, p.win_probability = some w ∧
        0 ≤ w ∧ w ≤ 100) ∧
      |wpSum rs - 100| ≤ ((predict_winner_ensemble rs).length : ℚ) / 200 := by
  have hS := scoreSum_pos hne hsh
  have hSne : scoreSum rs ≠ 0 := ne_of_gt hS
  constructor
  · intro p hp
    rcases mem_predict.mp hp with ⟨k, hk, rfl⟩
    rcases partyScore_some hsh hk with ⟨hsc, _, hpos⟩
    refine ⟨round2 (scD rs k / scoreSum rs * 100), mkStats_wp hSne hsc, ?_, ?_⟩
    · apply round2_nonneg
      have h1 : 0 ≤ scD rs k / scoreSum rs :=
        div_nonneg (le_of_lt hpos) (le_of_lt hS)
      linarith
    · apply round2_le_100
      have hle : scD rs k ≤ scoreSum rs := scD_le_scoreSum hsh hk
      have h1 : scD rs k / scoreSum rs ≤ 1 := (div_le_one hS).mpr hle
      linarith
  · have hperm : ((predict_winner_ensemble rs).filterMap
        (fun p => p.win_probability)).Perm
          ((statsList rs).filterMap (fun p => p.win_probability)) :=
      (isortBy_perm wpGeB (statsList rs)).filterMap _
    have hsum1 : wpSum rs
        = ((statsList rs).filterMap (fun p => p.win_probability)).sum :=
      hperm.sum_eq
    have hfm : (statsList rs).filterMap (fun p => p.win_probability)
        = (partyKeys rs).map
            (fun k => round2 (scD rs k / scoreSum rs * 100)) := by
      unfold statsList
      rw [List.filterMap_map]
      apply filterMap_eq_map_of_forall
      intro k hk
      exact mkStats_wp hSne (partyScore_some hsh hk).1
    have hexact : ((partyKeys rs).map
        (fun k => scD rs k / scoreSum rs * 100)).sum = 100 := by
      have e4 : (partyKeys rs).map (fun k => scD rs k / scoreSum rs * 100)
          = ((partyKeys rs).map (scD rs)).map
              (fun x => x / scoreSum rs * 100) := by
        rw [List.map_map]
        rfl
      rw [e4, sum_map_div_mul, ← scoreSum_eq hsh, div_self hSne, one_mul]
    have e3 : (partyKeys rs).map
          (fun k => round2 (scD rs k / scoreSum rs * 100))
        = ((partyKeys rs).map
            (fun k => scD rs k / scoreSum rs * 100)).map round2 := by
      rw [List.map_map]
      rfl
    have hb := sum_map_round2_abs_le
      ((partyKeys rs).map (fun k => scD rs k / scoreSum rs * 100))
    rw [hexact, List.length_map] at hb
    have hlen : (predict_winner_ensemble rs).length = (partyKeys rs).length := by
      unfold predict_winner_ensemble
      rw [(isortBy_perm wpGeB (statsList rs)).length_eq]
      unfold statsList
      rw [List.length_map]
    rw [hsum1, hfm, e3, hlen]
    exact hb

/-- Witness for the amended claim C7 at a concrete one-row input. -/
theorem C7_probability_sum_amended_witness :
    (∀ p ∈ predict_winner_ensemble rsC7w, ∃ w, p.win_probability = some w ∧
        0 ≤ w ∧ w ≤ 100) ∧
      |wpSum rsC7w - 100| ≤ ((predict_winner_ensemble rsC7w).length : ℚ) / 200 :=
  C7_probability_sum_amended rsC7w (by with_unfolding_all decide)
    (by with_unfolding_all decide)
